import Mathlib

/-!
Shallow embedding of the AutoTrader notifier script (src/autotrader_bot.py).

The script is a single-run batch job: it reads configuration from the
environment, scrapes a search page for listing links, extracts a numeric
identifier from each link, deduplicates, diffs against a persisted seen set,
and for each new listing sends an email, sends an SMS, archives the listing
page with up to 15 images, and finally persists the enlarged seen set.

External collaborators (HTTP transport, HTML parsing, SMTP, Twilio, JSON,
the clock) are modelled as oracles supplied in the Net structure: a parsed
search document is a list of anchors, a parsed listing page is a list of
image source strings, and each transport has a success oracle.  The
filesystem is modelled explicitly: the seen file content and the archive
folders with their files.  Uncaught Python exceptions are modelled as an
aborted run with a non-zero (fatal) outcome; partial filesystem effects made
before the abort are kept, exactly as on a real crash.
-/

namespace ATBot

/-- Delimiter class of the identifier pattern, the character class of
ID_REGEX (line 40 of the script): underscore, slash or hyphen. -/
def isDelim (c : Char) : Bool := c = '_' || c = '/' || c = '-'

/-- Maximal run of decimal digits at the front of a character list; the
greedy capture group of ID_REGEX. -/
def digitRun (l : List Char) : List Char := l.takeWhile Char.isDigit

/-- Leftmost match of ID_REGEX: scan for the first delimiter (underscore,
slash or hyphen) that is followed by at least six digits and return that
maximal digit run, the capture group.  Models the re.search call of
fetch_listings (script line 69). -/
def idSearch : List Char → Option (List Char)
  | [] => none
  | c :: rest =>
    if isDelim c = true ∧ 6 ≤ (digitRun rest).length then some (digitRun rest)
    else idSearch rest

/-- The match that the identifier pattern finds when anchored at position i
of the string, if any: position i holds a delimiter followed by at least six
digits.  Used to state what a leftmost match is. -/
def matchAt (s : List Char) (i : Nat) : Option (List Char) :=
  match s.drop i with
  | [] => none
  | c :: rest =>
    if isDelim c = true ∧ 6 ≤ (digitRun rest).length then some (digitRun rest)
    else none

/-- The identifier extractor: m = ID_REGEX.search(url); m.group(1). -/
def extractId (s : String) : Option String := (idSearch s.data).map String.mk

/-- An anchor element selected by CARD_HREF_CSS from the parsed search
document: its href attribute (empty when absent, as a.get with default)
and the result of a.get_text. -/
structure Anchor where
  href : String
  text : String
deriving DecidableEq

/-- A listing record as built by fetch_listings (script line 76). -/
structure Listing where
  id : String
  url : String
  title : String
deriving DecidableEq

/-- Title fallback of script line 75: the empty extracted text is falsy in
Python, so the placeholder is used. -/
def mkTitle (t : String) : String := if t = "" then "AutoTrader Listing" else t

/-- Identifier of an anchor: urljoin the href, then run the extractor
(script lines 68-72).  The urljoin of the requests library is an external
collaborator, passed in as the join function. -/
def anchorId (join : String → String) (a : Anchor) : Option String :=
  extractId (join a.href)

/-- Body of fetch_listings: walk the anchors in document order, skip anchors
without an identifier, skip identifiers already captured, and record one
listing per fresh identifier (script lines 67-76).  The accumulator holds
the identifiers captured so far, mirroring the dict named unique. -/
def fetchAux (join : String → String) : List Anchor → List String → List Listing
  | [], _ => []
  | a :: rest, ids =>
    match anchorId join a with
    | none => fetchAux join rest ids
    | some lid =>
      if lid ∈ ids then fetchAux join rest ids
      else ⟨lid, join a.href, mkTitle a.text⟩ :: fetchAux join rest (lid :: ids)

/-- fetch_listings on an already parsed document (script lines 55-79).
Insertion order of a Python dict is document order of first occurrence, so
list(unique.values()) is exactly this list. -/
def fetchListings (join : String → String) (doc : List Anchor) : List Listing :=
  fetchAux join doc []

/-- Order preserving deduplication keeping first occurrences, with an
accumulator of already seen elements. -/
def dedupFirstAux : List String → List String → List String
  | [], _ => []
  | x :: xs, seen =>
    if x ∈ seen then dedupFirstAux xs seen else x :: dedupFirstAux xs (x :: seen)

/-- Order preserving deduplication keeping first occurrences.  Used both to
state the collector dedup property and to model the Python set constructor
applied to a decoded list. -/
def dedupFirst (l : List String) : List String := dedupFirstAux l []

/-- Python string comparison on the character lists: lexicographic by code
point. -/
def charListLe : List Char → List Char → Bool
  | [], _ => true
  | _ :: _, [] => false
  | a :: as, b :: bs =>
    if a.toNat = b.toNat then charListLe as bs else decide (a.toNat < b.toNat)

/-- Python string comparison, the order used by the sorted builtin in
save_seen. -/
def strLe (s t : String) : Bool := charListLe s.data t.data

/-- Insert a string into a list, before the first element it is below or
equal to. -/
def insertSorted (x : String) : List String → List String
  | [] => [x]
  | y :: ys => if strLe x y then x :: y :: ys else y :: insertSorted x ys

/-- Insertion sort with the Python string order: models the sorted builtin
in save_seen (script line 52). -/
def sortStrings : List String → List String
  | [] => []
  | x :: xs => insertSorted x (sortStrings xs)

/-- Python string slicing s[:n]: the first n characters. -/
def strTake (s : String) (n : Nat) : String := String.mk (s.data.take n)

/-- Python str.startswith: the first characters of s are exactly p. -/
def strStartsWith (s p : String) : Bool :=
  decide (s.data.take p.data.length = p.data)

/-- A per-identifier archive folder and the files the script writes into it:
page.html, image_i.jpg files recorded by their number i, and
metadata.json holding id, url, title and the save timestamp. -/
structure ArchiveFolder where
  pageHtml : Option String
  images : List Nat
  metaFile : Option (String × String × String × String)
deriving DecidableEq

/-- A folder right after mkdir, before any file is written. -/
def emptyFolder : ArchiveFolder := ⟨none, [], none⟩

/-- The filesystem state the script touches: the seen_listings.json file and
the archives directory.  The seen file is none when absent; when present it
either decodes to a list of identifier strings or is invalid structured
data (modelled as some none). -/
structure FS where
  seenFile : Option (Option (List String))
  archives : List (String × ArchiveFolder)
deriving DecidableEq

/-- The environment variables the script reads (script lines 26-32); none
models an unset variable. -/
structure Env where
  searchUrl : Option String
  gmailUser : Option String
  gmailPassword : Option String
  twilioSid : Option String
  twilioToken : Option String
  twilioFrom : Option String
  twilioTo : Option String
deriving DecidableEq

/-- A fetched and parsed listing page: its raw text and the src attributes
of its img elements in document order (empty string when the attribute is
absent, as img.get with default). -/
structure Page where
  html : String
  imgSrcs : List String
deriving DecidableEq

/-- An email message as assembled by send_email (script lines 86-90). -/
structure EmailMsg where
  fromAddr : String
  toAddr : String
  subject : String
  body : String
deriving DecidableEq

/-- The external world: fetch results and transport outcomes.  searchFetch
is the search page request together with HTML parsing; pageFetch the
per-listing page request; imageOk whether an image request succeeds;
emailOk whether the SMTP session succeeds; smsOk whether the Twilio call
succeeds; join is urljoin against SEARCH_URL; now is the formatted
timestamp. -/
structure Net where
  searchFetch : Except Unit (List Anchor)
  join : String → String
  pageFetch : String → Except Unit Page
  imageOk : String → Bool
  emailOk : EmailMsg → Bool
  smsOk : String → Bool
  now : String

/-- Python truthiness of an optional environment string: set and non empty. -/
def truthy : Option String → Bool
  | none => false
  | some s => !(s == "")

/-- load_seen (script lines 44-48): empty set when the file is absent; the
decoded identifier set when it decodes to a list of strings; an uncaught
decode error otherwise. -/
def loadSeenE (fs : FS) : Except Unit (List String) :=
  match fs.seenFile with
  | none => Except.ok []
  | some none => Except.error ()
  | some (some l) => Except.ok (dedupFirst l)

/-- Folder lookup by identifier in the archives directory. -/
def lookupA (lid : String) : List (String × ArchiveFolder) → Option ArchiveFolder
  | [] => none
  | (k, v) :: rest => if k = lid then some v else lookupA lid rest

/-- Update the folder of an identifier in the archives directory. -/
def updateA (lid : String) (f : ArchiveFolder → ArchiveFolder) :
    List (String × ArchiveFolder) → List (String × ArchiveFolder)
  | [] => []
  | (k, v) :: rest => if k = lid then (k, f v) :: rest else (k, v) :: updateA lid f rest

/-- The numbers of the image files that the download loop writes, fetching
images numbered from i onward: a failed fetch is caught and its number is
skipped (script lines 128-134). -/
def attemptNums (net : Net) : Nat → List String → List Nat
  | _, [] => []
  | i, u :: us =>
    if net.imageOk u then i :: attemptNums net (i + 1) us
    else attemptNums net (i + 1) us

/-- The image download loop of archive_listing: for each image url, numbered
from i, attempt a fetch and on success write image_i.jpg into the folder of
the identifier; a failure is caught and logged. -/
def writeImagesA (net : Net) (lid : String) :
    List String → Nat → List (String × ArchiveFolder) → List (String × ArchiveFolder)
  | [], _, ar => ar
  | u :: us, i, ar =>
    let ar1 :=
      if net.imageOk u then
        updateA lid (fun fo => { fo with images := fo.images ++ [i] }) ar
      else ar
    writeImagesA net lid us (i + 1) ar1

/-- archive_listing (script lines 110-145).  If the folder exists, skip with
no fetch.  Otherwise mkdir, fetch the listing page (an uncaught failure
aborts with the empty folder already created), write page.html, download at
most the first 15 images whose src starts with http, and write
metadata.json.  Returns the new filesystem, the urls fetched, and whether
the call returned normally. -/
def archiveListing (net : Net) (l : Listing) (fs : FS) : FS × List String × Bool :=
  match lookupA l.id fs.archives with
  | some _ => (fs, [], true)
  | none =>
    let ar0 := fs.archives ++ [(l.id, emptyFolder)]
    match net.pageFetch l.url with
    | Except.error _ => ({ fs with archives := ar0 }, [l.url], false)
    | Except.ok page =>
      let ar1 := updateA l.id (fun fo => { fo with pageHtml := some page.html }) ar0
      let firstImgs := (page.imgSrcs.filter (fun s => strStartsWith s ("http"))).take 15
      let ar2 := writeImagesA net l.id firstImgs 1 ar1
      let ar3 := updateA l.id
        (fun fo => { fo with metaFile := some (l.id, l.url, l.title, net.now) }) ar2
      ({ fs with archives := ar3 }, l.url :: firstImgs, true)

/-- send_email (script lines 82-95): skipped unless both Gmail credentials
are truthy; otherwise a message with From and To both set to GMAIL_USER is
handed to the SMTP transport.  Returns the attempted message paired with
the transport outcome (a failed transport raises, which main catches). -/
def sendEmail (env : Env) (net : Net) (subject bodyStr : String) :
    List (EmailMsg × Bool) :=
  match env.gmailUser, env.gmailPassword with
  | some u, some p =>
    if u = "" ∨ p = "" then []
    else
      [(⟨u, u, subject, bodyStr⟩, net.emailOk ⟨u, u, subject, bodyStr⟩)]
  | _, _ => []

/-- Outcome of a send_sms call. -/
inductive SmsResult
  | skipped
  | sent (b : String)
  | failed
deriving DecidableEq

/-- send_sms (script lines 98-107): skipped unless all four Twilio values
are truthy; otherwise the body truncated to 1600 characters is handed to
the transport; a transport failure raises and is not caught anywhere. -/
def sendSms (env : Env) (net : Net) (bodyStr : String) : SmsResult :=
  if truthy env.twilioSid && truthy env.twilioToken &&
      truthy env.twilioFrom && truthy env.twilioTo then
    if net.smsOk (strTake bodyStr 1600) then SmsResult.sent (strTake bodyStr 1600)
    else SmsResult.failed
  else SmsResult.skipped

/-- The in-flight state of the main loop: the filesystem, the attempted
emails with their transport outcomes, the SMS bodies sent, the urls fetched
while archiving, and the in-memory seen set. -/
structure RunState where
  fs : FS
  emails : List (EmailMsg × Bool)
  smsSent : List String
  fetches : List String
  seen : List String
deriving DecidableEq

/-- Python set add on the list representation of the seen set. -/
def insertStr (x : String) (l : List String) : List String :=
  if x ∈ l then l else l ++ [x]

/-- The tail of one loop iteration after the notification attempts: archive
the listing and, when archiving returned normally, mark the listing seen;
an uncaught archive failure aborts with the iteration unfinished. -/
def afterSms (net : Net) (l : Listing) (st : RunState) : RunState × Bool :=
  let r := archiveListing net l st.fs
  if r.2.2 then
    ({ st with
        fs := r.1
        fetches := st.fetches ++ r.2.1
        seen := insertStr l.id st.seen }, true)
  else
    ({ st with fs := r.1, fetches := st.fetches ++ r.2.1 }, false)

/-- The subject line of the notification email for a listing (script line
162). -/
def subjectOf (l : Listing) : String := ("[AutoTrader] New listing ") ++ l.id

/-- The notification body composed from title and url (script line 160). -/
def bodyOf (l : Listing) : String := l.title ++ ("\n") ++ l.url

/-- One iteration of the main loop (script lines 159-167): attempt the
email with its exception caught, attempt the SMS with its exception not
caught, then archive and mark seen.  The returned flag is false exactly
when an uncaught exception aborts the run. -/
def processListing (env : Env) (net : Net) (l : Listing) (st : RunState) :
    RunState × Bool :=
  let st1 := { st with emails := st.emails ++ sendEmail env net (subjectOf l) (bodyOf l) }
  match sendSms env net (bodyOf l) with
  | SmsResult.failed => (st1, false)
  | SmsResult.skipped => afterSms net l st1
  | SmsResult.sent b => afterSms net l { st1 with smsSent := st1.smsSent ++ [b] }

/-- The main loop over the new listings, stopping at the first uncaught
exception. -/
def runLoop (env : Env) (net : Net) : List Listing → RunState → RunState × Bool
  | [], st => (st, true)
  | l :: rest, st =>
    match processListing env net l st with
    | (st1, true) => runLoop env net rest st1
    | (st1, false) => (st1, false)

/-- Process exit: ok is a zero exit status, fatal a non-zero one (sys.exit
with a message, or an uncaught exception). -/
inductive Outcome
  | ok
  | fatal
deriving DecidableEq

/-- The observable result of one invocation: the final filesystem, the
attempted emails with transport outcomes, the SMS bodies sent, the urls
fetched while archiving, and the exit status. -/
structure RunResult where
  fs : FS
  emails : List (EmailMsg × Bool)
  smsSent : List String
  fetches : List String
  outcome : Outcome
deriving DecidableEq

/-- main (script lines 148-170): require SEARCH_URL, load the seen set (an
invalid file raises), fetch and parse the search page (a failure raises),
filter the collected listings against the seen set, return successfully at
once when nothing is new, otherwise run the loop and, when it completes,
persist the sorted seen set and exit successfully. -/
def run (env : Env) (net : Net) (fs : FS) : RunResult :=
  if truthy env.searchUrl then
    match loadSeenE fs with
    | Except.error _ => ⟨fs, [], [], [], Outcome.fatal⟩
    | Except.ok seen =>
      match net.searchFetch with
      | Except.error _ => ⟨fs, [], [], [], Outcome.fatal⟩
      | Except.ok anchors =>
        if ((fetchListings net.join anchors).filter (fun l => l.id ∉ seen)).isEmpty then
          ⟨fs, [], [], [], Outcome.ok⟩
        else
          match runLoop env net
              ((fetchListings net.join anchors).filter (fun l => l.id ∉ seen))
              ⟨fs, [], [], [], seen⟩ with
          | (st, true) =>
            ⟨{ st.fs with seenFile := some (some (sortStrings st.seen)) },
              st.emails, st.smsSent, st.fetches, Outcome.ok⟩
          | (st, false) => ⟨st.fs, st.emails, st.smsSent, st.fetches, Outcome.fatal⟩
  else ⟨fs, [], [], [], Outcome.fatal⟩

/-- Everything a run result determines except the per-email transport
outcomes: used to state that email transport failures change nothing else. -/
def coreOf (r : RunResult) :
    FS × List EmailMsg × List String × List String × Outcome :=
  (r.fs, r.emails.map Prod.fst, r.smsSent, r.fetches, r.outcome)

/-- Everything a loop state determines except the per-email transport
outcomes. -/
def StCore (st : RunState) :
    FS × List EmailMsg × List String × List String × List String :=
  (st.fs, st.emails.map Prod.fst, st.smsSent, st.fetches, st.seen)

/-- An empty filesystem: no seen file, no archives. -/
def fs0 : FS := ⟨none, []⟩

/-- A small listing page with two absolute and one relative image source. -/
def pageW : Page := ⟨("<html>"), [("http://img/1.jpg"), ("rel.jpg"), ("http://img/2.jpg")]⟩

/-- A configured environment with Gmail credentials only. -/
def envA : Env :=
  ⟨some ("http://search"), some ("g@example.com"), some ("pw"), none, none, none, none⟩

/-- A healthy external world with one listing link on the search page. -/
def netA : Net :=
  ⟨Except.ok [⟨("/a/-222222"), ("T")⟩], fun s => s, fun _ => Except.ok pageW,
    fun _ => true, fun _ => true, fun _ => true, ("2025-01-01 00:00:00")⟩

/-- A configured environment with Twilio credentials only. -/
def envS : Env :=
  ⟨some ("http://search"), none, none, some ("sid"), some ("tok"), some ("+1"), some ("+2")⟩

/-- A world where the Twilio transport fails. -/
def netS : Net :=
  ⟨Except.ok [⟨("/a/-333333"), ("Car")⟩], fun s => s, fun _ => Except.ok pageW,
    fun _ => true, fun _ => true, fun _ => false, ("ts")⟩

/-- A configured environment with no credentials at all. -/
def envB : Env := ⟨some ("http://search"), none, none, none, none, none, none⟩

/-- A world where the search page fetch itself fails. -/
def netB : Net :=
  ⟨Except.error (), fun s => s, fun _ => Except.error (), fun _ => false,
    fun _ => false, fun _ => false, ("ts")⟩

/-- A listing used to exercise the archiver. -/
def l6 : Listing := ⟨("444444"), ("http://x/a-444444"), ("t6")⟩

/-- A listing page referencing thirty absolute image urls. -/
def page30 : Page := ⟨("h"), List.replicate 30 ("http://i.jpg")⟩

/-- A healthy world whose listing page is page30. -/
def net6 : Net := { netA with pageFetch := fun _ => Except.ok page30 }

/-- A filesystem that already holds an archive folder for id 123456. -/
def fsA : FS := ⟨none, [(("123456"), emptyFolder)]⟩

/-- The listing whose folder exists in fsA. -/
def lA : Listing := ⟨("123456"), ("http://x/a-123456"), ("tA")⟩

/-- A search document with a duplicated listing link. -/
def docW : List Anchor :=
  [⟨("/a/-111111"), ("T1")⟩, ⟨("/a/-111111"), ("T1dup")⟩, ⟨("/a/-222222"), ("")⟩]

/-- The email message the run over envA and netA hands to the transport. -/
def mA : EmailMsg :=
  ⟨("g@example.com"), ("g@example.com"), ("[AutoTrader] New listing 222222"),
    ("T\n/a/-222222")⟩

/-- A fault-free world with an empty search page. -/
def netOk : Net :=
  ⟨Except.ok [], fun s => s, fun _ => Except.ok pageW, fun _ => true,
    fun _ => true, fun _ => true, ("ts")⟩

/-- The single listing collected from the search page of netS. -/
def lS : Listing := ⟨("333333"), ("/a/-333333"), ("Car")⟩

theorem matchAt_nil (i : Nat) : matchAt [] i = none := by
  cases i <;> rfl

theorem matchAt_succ (c : Char) (s : List Char) (i : Nat) :
    matchAt (c :: s) (i + 1) = matchAt s i := rfl

theorem idSearch_none_iff (s : List Char) :
    idSearch s = none ↔ ∀ i, matchAt s i = none := by
  induction s with
  | nil => simp [idSearch, matchAt_nil]
  | cons c rest ih =>
    by_cases h : isDelim c = true ∧ 6 ≤ (digitRun rest).length
    · constructor
      · intro hn; exact absurd hn (by simp [idSearch, h])
      · intro hall; exact absurd (hall 0) (by simp [matchAt, h])
    · constructor
      · intro hn i
        cases i with
        | zero => simp [matchAt, h]
        | succ j =>
          rw [matchAt_succ]
          exact (ih.mp (by simpa [idSearch, h] using hn)) j
      · intro hall
        simp only [idSearch, if_neg h]
        exact ih.mpr (fun i => by rw [← matchAt_succ c rest i]; exact hall (i + 1))

theorem idSearch_some (s : List Char) (r : List Char) (h : idSearch s = some r) :
    ∃ i, matchAt s i = some r ∧ ∀ j, j < i → matchAt s j = none := by
  induction s with
  | nil => exact absurd h (by simp [idSearch])
  | cons c rest ih =>
    by_cases hc : isDelim c = true ∧ 6 ≤ (digitRun rest).length
    · refine ⟨0, ?_, ?_⟩
      · have hr : digitRun rest = r := by simpa [idSearch, hc] using h
        simp only [matchAt, List.drop_zero]
        rw [if_pos hc, hr]
      · intro j hj; exact absurd hj (Nat.not_lt_zero j)
    · obtain ⟨i, hi, hbefore⟩ := ih (by simpa [idSearch, hc] using h)
      refine ⟨i + 1, by rw [matchAt_succ]; exact hi, ?_⟩
      intro j hj
      cases j with
      | zero => simp [matchAt, hc]
      | succ k => rw [matchAt_succ]; exact hbefore k (Nat.lt_of_succ_lt_succ hj)

/-- C9: for every url or href string, the extractor returns nothing exactly
when no position of the string holds a delimiter followed by at least six
digits, and otherwise returns the maximal digit run of the leftmost such
position.  Purity is inherent: extractId is a function of its argument
alone, so equal inputs give equal outputs by reflexivity. -/
theorem extractId_first_match (s : String) :
    (extractId s = none ↔ ∀ i, matchAt s.data i = none) ∧
    (∀ r, extractId s = some r →
      ∃ i, matchAt s.data i = some r.data ∧ ∀ j, j < i → matchAt s.data j = none) := by
  constructor
  · have : extractId s = none ↔ idSearch s.data = none := by
      simp [extractId]
    rw [this]
    exact idSearch_none_iff s.data
  · intro r h
    have hex : ∃ l, idSearch s.data = some l ∧ String.mk l = r := by
      simpa [extractId] using h
    obtain ⟨l, hl, hr⟩ := hex
    have hd : r.data = l := by rw [← hr]
    rw [hd]
    exact idSearch_some s.data l hl

theorem extractId_first_match_witness :
    ∃ i, matchAt (String.data ("x-1234567")) i = some (String.data ("1234567")) ∧
      ∀ j, j < i → matchAt (String.data ("x-1234567")) j = none :=
  (extractId_first_match ("x-1234567")).2 ("1234567") (by decide)

theorem mem_dedupFirstAux (l : List String) :
    ∀ seen x, x ∈ dedupFirstAux l seen ↔ (x ∈ l ∧ x ∉ seen) := by
  induction l with
  | nil => intro seen x; simp [dedupFirstAux]
  | cons y ys ih =>
    intro seen x
    by_cases hy : y ∈ seen
    · rw [dedupFirstAux, if_pos hy, ih seen x]
      constructor
      · rintro ⟨hx, hns⟩; exact ⟨List.mem_cons_of_mem _ hx, hns⟩
      · rintro ⟨hx, hns⟩
        rcases List.mem_cons.mp hx with rfl | hx
        · exact absurd hy hns
        · exact ⟨hx, hns⟩
    · rw [dedupFirstAux, if_neg hy]
      rw [List.mem_cons, ih (y :: seen) x]
      constructor
      · rintro (rfl | ⟨hx, hns⟩)
        · exact ⟨List.mem_cons_self _ _, hy⟩
        · refine ⟨List.mem_cons_of_mem _ hx, fun hin => hns ?_⟩
          exact List.mem_cons_of_mem _ hin
      · rintro ⟨hx, hns⟩
        rcases List.mem_cons.mp hx with rfl | hx
        · exact Or.inl rfl
        · by_cases hxy : x = y
          · exact Or.inl hxy
          · exact Or.inr ⟨hx, by simp [List.mem_cons, hxy, hns]⟩

theorem nodup_dedupFirstAux (l : List String) :
    ∀ seen, (dedupFirstAux l seen).Nodup := by
  induction l with
  | nil => intro seen; simp [dedupFirstAux]
  | cons y ys ih =>
    intro seen
    by_cases hy : y ∈ seen
    · rw [dedupFirstAux, if_pos hy]; exact ih seen
    · rw [dedupFirstAux, if_neg hy, List.nodup_cons]
      refine ⟨fun hmem => ?_, ih (y :: seen)⟩
      exact ((mem_dedupFirstAux ys (y :: seen) y).mp hmem).2 (List.mem_cons_self _ _)

theorem mem_dedupFirst (l : List String) (x : String) :
    x ∈ dedupFirst l ↔ x ∈ l := by
  rw [dedupFirst, mem_dedupFirstAux]
  simp

theorem nodup_dedupFirst (l : List String) : (dedupFirst l).Nodup :=
  nodup_dedupFirstAux l []

theorem fetchAux_map_id (join : String → String) (doc : List Anchor) :
    ∀ ids, (fetchAux join doc ids).map Listing.id =
      dedupFirstAux (doc.filterMap (anchorId join)) ids := by
  induction doc with
  | nil => intro ids; rfl
  | cons a rest ih =>
    intro ids
    cases h : anchorId join a with
    | none => simp [fetchAux, List.filterMap_cons, h, ih ids]
    | some lid =>
      by_cases hm : lid ∈ ids
      · simp [fetchAux, List.filterMap_cons, h, dedupFirstAux, hm, ih ids]
      · simp [fetchAux, List.filterMap_cons, h, dedupFirstAux, hm, ih (lid :: ids)]

theorem fetchAux_first_occ (join : String → String) (doc : List Anchor) :
    ∀ ids l, l ∈ fetchAux join doc ids →
      l.id ∉ ids ∧
      ∃ a, doc.find? (fun b => anchorId join b == some l.id) = some a ∧
        anchorId join a = some l.id ∧ l.url = join a.href ∧ l.title = mkTitle a.text := by
  induction doc with
  | nil => intro ids l h; exact absurd h (by simp [fetchAux])
  | cons a rest ih =>
    intro ids l h
    cases ha : anchorId join a with
    | none =>
      have h' : l ∈ fetchAux join rest ids := by
        simpa [fetchAux, ha] using h
      obtain ⟨hni, b, hfind, hb⟩ := ih ids l h'
      refine ⟨hni, b, ?_, hb⟩
      rw [List.find?_cons_of_neg, hfind]
      simp [ha]
    | some lid =>
      by_cases hm : lid ∈ ids
      · have h' : l ∈ fetchAux join rest ids := by
          simpa [fetchAux, ha, hm] using h
        obtain ⟨hni, b, hfind, hb⟩ := ih ids l h'
        have hne : lid ≠ l.id := fun he => hni (he ▸ hm)
        refine ⟨hni, b, ?_, hb⟩
        rw [List.find?_cons_of_neg, hfind]
        simp [ha, hne]
      · have hrw : fetchAux join (a :: rest) ids =
            ⟨lid, join a.href, mkTitle a.text⟩ :: fetchAux join rest (lid :: ids) := by
          simp [fetchAux, ha, hm]
        rw [hrw] at h
        cases h with
        | head =>
          refine ⟨hm, a, ?_, ha, rfl, rfl⟩
          rw [List.find?_cons_of_pos]
          simp [ha]
        | tail _ h' =>
          obtain ⟨hni, b, hfind, hb⟩ := ih (lid :: ids) l h'
          have hne : lid ≠ l.id := fun he => hni (by rw [← he]; exact List.mem_cons_self _ _)
          refine ⟨fun hin => hni (List.mem_cons_of_mem _ hin), b, ?_, hb⟩
          rw [List.find?_cons_of_neg, hfind]
          simp [ha, hne]

/-- C2: the identifiers of the collector output are exactly the distinct
identifiers of the matching anchors in document order of first occurrence
(so the output has exactly K listings for K distinct identifiers, with no
duplicate), and every returned listing carries the url and title derived
from the first anchor in document order whose identifier it bears. -/
theorem fetchListings_dedup (join : String → String) (doc : List Anchor) :
    (fetchListings join doc).map Listing.id = dedupFirst (doc.filterMap (anchorId join)) ∧
    (fetchListings join doc).length = (dedupFirst (doc.filterMap (anchorId join))).length ∧
    ((fetchListings join doc).map Listing.id).Nodup ∧
    ∀ l, l ∈ fetchListings join doc →
      ∃ a, doc.find? (fun b => anchorId join b == some l.id) = some a ∧
        anchorId join a = some l.id ∧ l.url = join a.href ∧ l.title = mkTitle a.text := by
  have hmap : (fetchListings join doc).map Listing.id =
      dedupFirst (doc.filterMap (anchorId join)) := fetchAux_map_id join doc []
  refine ⟨hmap, ?_, ?_, ?_⟩
  · calc (fetchListings join doc).length
        = ((fetchListings join doc).map Listing.id).length := (List.length_map _ _).symm
      _ = (dedupFirst (doc.filterMap (anchorId join))).length := by rw [hmap]
  · rw [show (fetchListings join doc).map Listing.id =
        dedupFirst (doc.filterMap (anchorId join)) from hmap]
    exact nodup_dedupFirst _
  · intro l h
    exact (fetchAux_first_occ join doc [] l h).2

theorem fetchListings_dedup_witness :
    ∃ a, docW.find? (fun b => anchorId (fun s => s) b == some ("111111")) = some a ∧
      anchorId (fun s => s) a = some ("111111") ∧
      ("/a/-111111") = (fun s : String => s) a.href ∧
      ("T1") = mkTitle a.text :=
  (fetchListings_dedup (fun s => s) docW).2.2.2
    ⟨("111111"), ("/a/-111111"), ("T1")⟩ (by decide)

theorem charListLe_total : ∀ as bs : List Char,
    charListLe as bs = true ∨ charListLe bs as = true := by
  intro as
  induction as with
  | nil => intro bs; exact Or.inl rfl
  | cons a as ih =>
    intro bs
    cases bs with
    | nil => exact Or.inr rfl
    | cons b bs =>
      by_cases hab : a.toNat = b.toNat
      · rcases ih bs with h | h
        · exact Or.inl (by simp only [charListLe, if_pos hab]; exact h)
        · exact Or.inr (by simp only [charListLe, if_pos hab.symm]; exact h)
      · rcases Nat.lt_or_ge a.toNat b.toNat with hlt | hge
        · exact Or.inl (by simp only [charListLe, if_neg hab]; simpa using hlt)
        · have hba : ¬b.toNat = a.toNat := fun he => hab he.symm
          have hlt : b.toNat < a.toNat := Nat.lt_of_le_of_ne hge hba
          exact Or.inr (by simp only [charListLe, if_neg hba]; simpa using hlt)

theorem charListLe_trans : ∀ as bs cs : List Char,
    charListLe as bs = true → charListLe bs cs = true → charListLe as cs = true := by
  intro as
  induction as with
  | nil => intro bs cs _ _; rfl
  | cons a as ih =>
    intro bs cs h1 h2
    cases bs with
    | nil => simp [charListLe] at h1
    | cons b bs =>
      cases cs with
      | nil => simp [charListLe] at h2
      | cons c cs =>
        by_cases hab : a.toNat = b.toNat <;> by_cases hbc : b.toNat = c.toNat
        · rw [charListLe, if_pos hab] at h1
          rw [charListLe, if_pos hbc] at h2
          rw [charListLe, if_pos (hab.trans hbc)]
          exact ih bs cs h1 h2
        · rw [charListLe, if_neg hbc] at h2
          have hbc' : b.toNat < c.toNat := by simpa using h2
          have hac : a.toNat < c.toNat := hab ▸ hbc'
          rw [charListLe, if_neg (Nat.ne_of_lt hac)]
          simpa using hac
        · rw [charListLe, if_neg hab] at h1
          have hab' : a.toNat < b.toNat := by simpa using h1
          have hac : a.toNat < c.toNat := hbc ▸ hab'
          rw [charListLe, if_neg (Nat.ne_of_lt hac)]
          simpa using hac
        · rw [charListLe, if_neg hab] at h1
          rw [charListLe, if_neg hbc] at h2
          have hab' : a.toNat < b.toNat := by simpa using h1
          have hbc' : b.toNat < c.toNat := by simpa using h2
          have hac := Nat.lt_trans hab' hbc'
          rw [charListLe, if_neg (Nat.ne_of_lt hac)]
          simpa using hac

theorem strLe_total (s t : String) : strLe s t = true ∨ strLe t s = true :=
  charListLe_total s.data t.data

theorem strLe_trans (s t u : String) (h1 : strLe s t = true) (h2 : strLe t u = true) :
    strLe s u = true :=
  charListLe_trans s.data t.data u.data h1 h2

theorem mem_insertSorted (x y : String) :
    ∀ l, y ∈ insertSorted x l ↔ y = x ∨ y ∈ l := by
  intro l
  induction l with
  | nil => simp [insertSorted]
  | cons z zs ih =>
    by_cases h : strLe x z = true
    · simp only [insertSorted, if_pos h, List.mem_cons]
    · simp only [insertSorted, if_neg h, List.mem_cons, ih]
      tauto

theorem pairwise_insertSorted (x : String) :
    ∀ l, List.Pairwise (fun a b => strLe a b = true) l →
      List.Pairwise (fun a b => strLe a b = true) (insertSorted x l) := by
  intro l
  induction l with
  | nil => intro _; simp [insertSorted]
  | cons z zs ih =>
    intro hp
    rw [List.pairwise_cons] at hp
    obtain ⟨hz, hzs⟩ := hp
    by_cases h : strLe x z = true
    · simp only [insertSorted, if_pos h]
      rw [List.pairwise_cons]
      refine ⟨?_, List.pairwise_cons.mpr ⟨hz, hzs⟩⟩
      intro b hb
      rcases List.mem_cons.mp hb with rfl | hbz
      · exact h
      · exact strLe_trans x z b h (hz b hbz)
    · simp only [insertSorted, if_neg h]
      rw [List.pairwise_cons]
      refine ⟨?_, ih hzs⟩
      intro b hb
      rcases (mem_insertSorted x b zs).mp hb with rfl | hbz
      · rcases strLe_total b z with h' | h'
        · exact absurd h' h
        · exact h'
      · exact hz b hbz

theorem mem_sortStrings (x : String) : ∀ l, x ∈ sortStrings l ↔ x ∈ l := by
  intro l
  induction l with
  | nil => simp [sortStrings]
  | cons y ys ih => simp [sortStrings, mem_insertSorted, ih, List.mem_cons]

theorem pairwise_sortStrings :
    ∀ l, List.Pairwise (fun a b => strLe a b = true) (sortStrings l) := by
  intro l
  induction l with
  | nil => simp [sortStrings]
  | cons y ys ih => exact pairwise_insertSorted y (sortStrings ys) ih

theorem nodup_insertSorted (x : String) :
    ∀ l, x ∉ l → l.Nodup → (insertSorted x l).Nodup := by
  intro l
  induction l with
  | nil => intro _ _; simp [insertSorted]
  | cons z zs ih =>
    intro hx hnd
    rw [List.nodup_cons] at hnd
    obtain ⟨hz, hzs⟩ := hnd
    by_cases h : strLe x z = true
    · simp only [insertSorted, if_pos h]
      rw [List.nodup_cons, List.nodup_cons]
      exact ⟨hx, hz, hzs⟩
    · simp only [insertSorted, if_neg h]
      rw [List.nodup_cons]
      constructor
      · intro hmem
        rcases (mem_insertSorted x z zs).mp hmem with rfl | hzz
        · exact hx (List.mem_cons_self _ _)
        · exact hz hzz
      · exact ih (fun hm => hx (List.mem_cons_of_mem _ hm)) hzs

theorem nodup_sortStrings : ∀ l : List String, l.Nodup → (sortStrings l).Nodup := by
  intro l
  induction l with
  | nil => intro _; simp [sortStrings]
  | cons y ys ih =>
    intro hnd
    rw [List.nodup_cons] at hnd
    obtain ⟨hy, hys⟩ := hnd
    exact nodup_insertSorted y (sortStrings ys)
      (fun hm => hy ((mem_sortStrings y ys).mp hm)) (ih hys)

theorem mem_insertStr (x y : String) (l : List String) :
    y ∈ insertStr x l ↔ y = x ∨ y ∈ l := by
  unfold insertStr
  by_cases h : x ∈ l
  · rw [if_pos h]
    constructor
    · exact Or.inr
    · rintro (rfl | h'); exact h; exact h'
  · rw [if_neg h]
    simp [List.mem_append, or_comm]

theorem nodup_insertStr (x : String) (l : List String) (h : l.Nodup) :
    (insertStr x l).Nodup := by
  unfold insertStr
  by_cases hx : x ∈ l
  · rw [if_pos hx]; exact h
  · rw [if_neg hx]
    simp [List.nodup_append, h, hx]

theorem lookupA_append_none (lid : String) (v : ArchiveFolder) :
    ∀ ar, lookupA lid ar = none → lookupA lid (ar ++ [(lid, v)]) = some v := by
  intro ar
  induction ar with
  | nil => intro _; simp [lookupA]
  | cons p rest ih =>
    obtain ⟨k, w⟩ := p
    intro h
    by_cases hk : k = lid
    · rw [lookupA, if_pos hk] at h; cases h
    · rw [lookupA, if_neg hk] at h
      rw [List.cons_append, lookupA, if_neg hk]
      exact ih h

theorem lookupA_updateA_self (lid : String) (f : ArchiveFolder → ArchiveFolder) :
    ∀ ar, lookupA lid (updateA lid f ar) = (lookupA lid ar).map f := by
  intro ar
  induction ar with
  | nil => simp [lookupA, updateA]
  | cons p rest ih =>
    obtain ⟨k, w⟩ := p
    by_cases hk : k = lid
    · simp only [updateA, lookupA, if_pos hk]
      rfl
    · simp only [updateA, lookupA, if_neg hk]
      exact ih

theorem lookupA_writeImagesA (net : Net) (lid : String) :
    ∀ us i ar fo, lookupA lid ar = some fo →
      lookupA lid (writeImagesA net lid us i ar) =
        some { fo with images := fo.images ++ attemptNums net i us } := by
  intro us
  induction us with
  | nil =>
    intro i ar fo h
    simpa [writeImagesA, attemptNums] using h
  | cons u us ih =>
    intro i ar fo h
    by_cases hu : net.imageOk u = true
    · have h1 : lookupA lid
          (updateA lid (fun fo => { fo with images := fo.images ++ [i] }) ar) =
          some { fo with images := fo.images ++ [i] } := by
        rw [lookupA_updateA_self, h]; rfl
      simp only [writeImagesA, if_pos hu]
      rw [ih (i + 1) _ _ h1]
      simp only [attemptNums, if_pos hu]
      simp [List.append_assoc]
    · simp only [writeImagesA, if_neg hu]
      rw [ih (i + 1) _ _ h]
      simp only [attemptNums, if_neg hu]

theorem attemptNums_all_ok (net : Net) (hok : ∀ u, net.imageOk u = true) :
    ∀ us i, attemptNums net i us = List.range' i us.length := by
  intro us
  induction us with
  | nil => intro i; simp [attemptNums, List.range']
  | cons u us ih =>
    intro i
    simp only [attemptNums, if_pos (hok u), List.length_cons, List.range']
    rw [ih (i + 1)]

/-- C5: when the archive folder of the listing already exists, the archiver
returns at once: the filesystem is returned unchanged (every folder and
file untouched), the list of fetched urls is empty (no network call), and
the call returns normally. -/
theorem archiveListing_skip (net : Net) (l : Listing) (fs : FS) (fo : ArchiveFolder)
    (h : lookupA l.id fs.archives = some fo) :
    archiveListing net l fs = (fs, [], true) := by
  unfold archiveListing
  rw [h]

theorem archiveListing_skip_witness :
    archiveListing netA lA fsA = (fsA, [], true) :=
  archiveListing_skip netA lA fsA emptyFolder (by decide)

/-- C6: when the folder is created fresh and the page fetch succeeds, the
archiver fetches the page and then exactly the first 15 image references
whose source starts with http, in document order; the folder afterwards
holds the page snapshot, one image file per successful image fetch numbered
by position starting at 1, and the metadata record; when every image fetch
succeeds the file numbers are consecutive from 1, and 30 absolute image
references leave exactly 15 image files, numbered 1 through 15. -/
theorem archiveListing_images (net : Net) (l : Listing) (fs : FS) (page : Page)
    (h1 : lookupA l.id fs.archives = none)
    (h2 : net.pageFetch l.url = Except.ok page) :
    (archiveListing net l fs).2.2 = true ∧
    (archiveListing net l fs).2.1 =
      l.url :: (page.imgSrcs.filter (fun s => strStartsWith s ("http"))).take 15 ∧
    lookupA l.id (archiveListing net l fs).1.archives =
      some ⟨some page.html,
        attemptNums net 1 ((page.imgSrcs.filter (fun s => strStartsWith s ("http"))).take 15),
        some (l.id, l.url, l.title, net.now)⟩ ∧
    ((∀ u, net.imageOk u = true) →
      attemptNums net 1 ((page.imgSrcs.filter (fun s => strStartsWith s ("http"))).take 15) =
        List.range' 1 ((page.imgSrcs.filter (fun s => strStartsWith s ("http"))).take 15).length) ∧
    ((page.imgSrcs.filter (fun s => strStartsWith s ("http"))).length = 30 →
      ((page.imgSrcs.filter (fun s => strStartsWith s ("http"))).take 15).length = 15) := by
  have h0 : lookupA l.id (fs.archives ++ [(l.id, emptyFolder)]) = some emptyFolder :=
    lookupA_append_none l.id emptyFolder fs.archives h1
  refine ⟨?_, ?_, ?_, ?_, ?_⟩
  · unfold archiveListing; rw [h1, h2]
  · unfold archiveListing; rw [h1, h2]
  · unfold archiveListing
    rw [h1, h2]
    simp only
    rw [lookupA_updateA_self]
    rw [lookupA_writeImagesA net l.id _ 1 _ ⟨some page.html, [], none⟩ (by rw [lookupA_updateA_self, h0]; rfl)]
    rfl
  · intro hok
    rw [attemptNums_all_ok net hok]
  · intro h30
    rw [List.length_take, h30]
    decide

theorem archiveListing_images_witness :
    (archiveListing net6 l6 fs0).2.1 =
      l6.url :: (page30.imgSrcs.filter (fun s => strStartsWith s ("http"))).take 15 ∧
    ((page30.imgSrcs.filter (fun s => strStartsWith s ("http"))).take 15).length = 15 :=
  ⟨(archiveListing_images net6 l6 fs0 page30 rfl rfl).2.1,
    (archiveListing_images net6 l6 fs0 page30 rfl rfl).2.2.2.2 (by decide)⟩

/-- C8: load_seen returns the empty set when no seen file exists (the
first-run case, not an error), raises a storage error exactly when the
file exists but does not decode to a list of identifier strings, and
returns the decoded identifier set when it does. -/
theorem loadSeenE_spec (fs : FS) :
    (fs.seenFile = none → loadSeenE fs = Except.ok []) ∧
    (loadSeenE fs = Except.error () ↔ fs.seenFile = some none) ∧
    (∀ l, fs.seenFile = some (some l) → loadSeenE fs = Except.ok (dedupFirst l)) := by
  obtain ⟨sf, ar⟩ := fs
  rcases sf with _ | (_ | l) <;> simp [loadSeenE]

theorem loadSeenE_spec_witness :
    loadSeenE fs0 = Except.ok [] ∧ loadSeenE ⟨some none, []⟩ = Except.error () :=
  ⟨(loadSeenE_spec fs0).1 rfl, (loadSeenE_spec ⟨some none, []⟩).2.1.mpr rfl⟩

theorem nodup_loadSeen (fs : FS) (s : List String) (h : loadSeenE fs = Except.ok s) :
    s.Nodup := by
  unfold loadSeenE at h
  rcases hsf : fs.seenFile with _ | (_ | l)
  · rw [hsf] at h
    injection h with h
    rw [← h]
    exact List.nodup_nil
  · rw [hsf] at h; cases h
  · rw [hsf] at h
    injection h with h
    rw [← h]
    exact nodup_dedupFirst l

theorem archiveListing_seenFile (net : Net) (l : Listing) (fs : FS) :
    (archiveListing net l fs).1.seenFile = fs.seenFile := by
  unfold archiveListing
  cases h : lookupA l.id fs.archives with
  | some fo => rfl
  | none =>
    cases hp : net.pageFetch l.url with
    | error e => rfl
    | ok page => rfl

theorem afterSms_emails (net : Net) (l : Listing) (st : RunState) :
    (afterSms net l st).1.emails = st.emails := by
  unfold afterSms
  rcases archiveListing net l st.fs with ⟨fs', log, b⟩
  cases b <;> rfl

theorem afterSms_true (net : Net) (l : Listing) (st st' : RunState)
    (h : afterSms net l st = (st', true)) :
    st'.seen = insertStr l.id st.seen ∧ st'.fs.seenFile = st.fs.seenFile := by
  unfold afterSms at h
  rcases har : archiveListing net l st.fs with ⟨fs', log, b⟩
  rw [har] at h
  cases b with
  | false => simp at h
  | true =>
    injection h with h1 h2
    have hfs : fs' = (archiveListing net l st.fs).1 := by rw [har]
    rw [← h1]
    refine ⟨rfl, ?_⟩
    show fs'.seenFile = st.fs.seenFile
    rw [hfs]
    exact archiveListing_seenFile net l st.fs

theorem processListing_true (env : Env) (net : Net) (l : Listing) (st st' : RunState)
    (h : processListing env net l st = (st', true)) :
    st'.seen = insertStr l.id st.seen ∧ st'.fs.seenFile = st.fs.seenFile := by
  unfold processListing at h
  cases hs : sendSms env net (bodyOf l) with
  | failed => rw [hs] at h; simp at h
  | skipped =>
    rw [hs] at h
    exact afterSms_true net l
      { st with emails := st.emails ++ sendEmail env net (subjectOf l) (bodyOf l) } st' h
  | sent b =>
    rw [hs] at h
    exact afterSms_true net l { { st with emails := st.emails ++ sendEmail env net (subjectOf l) (bodyOf l) } with smsSent := st.smsSent ++ [b] } st' h

theorem runLoop_true_seen (env : Env) (net : Net) :
    ∀ ls st st', runLoop env net ls st = (st', true) →
      (∀ x, x ∈ st.seen → x ∈ st'.seen) ∧
      (∀ l, l ∈ ls → l.id ∈ st'.seen) ∧
      st'.fs.seenFile = st.fs.seenFile ∧
      (st.seen.Nodup → st'.seen.Nodup) := by
  intro ls
  induction ls with
  | nil =>
    intro st st' h
    unfold runLoop at h
    injection h with h1 h2
    rw [← h1]
    exact ⟨fun x hx => hx, fun l hl => absurd hl (List.not_mem_nil l), rfl, id⟩
  | cons l rest ih =>
    intro st st' h
    unfold runLoop at h
    rcases hp : processListing env net l st with ⟨st1, b⟩
    rw [hp] at h
    cases b with
    | false => simp at h
    | true =>
      have h' : runLoop env net rest st1 = (st', true) := by simpa using h
      obtain ⟨hseen, hfile⟩ := processListing_true env net l st st1 hp
      obtain ⟨hmono, hmark, hfile', hnd⟩ := ih st1 st' h'
      refine ⟨?_, ?_, ?_, ?_⟩
      · intro x hx
        exact hmono x (by rw [hseen]; exact (mem_insertStr l.id x st.seen).mpr (Or.inr hx))
      · intro l' hl'
        rcases List.mem_cons.mp hl' with rfl | hl'
        · exact hmono l'.id (by rw [hseen]; exact (mem_insertStr _ _ _).mpr (Or.inl rfl))
        · exact hmark l' hl'
      · rw [hfile', hfile]
      · intro hndst
        refine hnd ?_
        rw [hseen]
        exact nodup_insertStr _ _ hndst

theorem run_ok_shape (env : Env) (net : Net) (fs : FS)
    (h : (run env net fs).outcome = Outcome.ok) :
    truthy env.searchUrl = true ∧
    ∃ seen anchors,
      loadSeenE fs = Except.ok seen ∧
      net.searchFetch = Except.ok anchors ∧
      ((((fetchListings net.join anchors).filter (fun l => l.id ∉ seen)).isEmpty = true ∧
          run env net fs = ⟨fs, [], [], [], Outcome.ok⟩) ∨
        (∃ st, runLoop env net
            ((fetchListings net.join anchors).filter (fun l => l.id ∉ seen))
            ⟨fs, [], [], [], seen⟩ = (st, true) ∧
          run env net fs = ⟨{ st.fs with seenFile := some (some (sortStrings st.seen)) },
            st.emails, st.smsSent, st.fetches, Outcome.ok⟩)) := by
  by_cases ht : truthy env.searchUrl = true
  · refine ⟨ht, ?_⟩
    cases hls : loadSeenE fs with
    | error e =>
      exfalso
      unfold run at h
      rw [if_pos ht, hls] at h
      exact Outcome.noConfusion h
    | ok seen =>
      cases hsf : net.searchFetch with
      | error e =>
        exfalso
        unfold run at h
        rw [if_pos ht, hls, hsf] at h
        exact Outcome.noConfusion h
      | ok anchors =>
        refine ⟨seen, anchors, rfl, rfl, ?_⟩
        by_cases hni : ((fetchListings net.join anchors).filter
            (fun l => l.id ∉ seen)).isEmpty = true
        · left
          refine ⟨hni, ?_⟩
          unfold run
          rw [if_pos ht]
          simp only [hls, hsf]
          rw [if_pos hni]
        · right
          rcases hloop : runLoop env net
              ((fetchListings net.join anchors).filter (fun l => l.id ∉ seen))
              ⟨fs, [], [], [], seen⟩ with ⟨st, b⟩
          cases b with
          | false =>
            exfalso
            unfold run at h
            rw [if_pos ht] at h
            simp only [hls, hsf] at h
            rw [if_neg hni] at h
            simp only [hloop] at h
            exact Outcome.noConfusion h
          | true =>
            refine ⟨st, rfl, ?_⟩
            unfold run
            rw [if_pos ht]
            simp only [hls, hsf]
            rw [if_neg hni]
            simp only [hloop]
  · exfalso
    unfold run at h
    rw [if_neg ht] at h
    exact Outcome.noConfusion h

/-- C1: a second invocation of the orchestrator against the filesystem a
successful run leaves behind, with the same environment and the same
search result, attempts no email or SMS notification, fetches no listing
page or image, leaves every archive folder and the seen file unchanged,
and exits successfully.  The hypothesis states that the first run
completed successfully, which covers every run that produced (or kept) a
seen file. -/
theorem run_idempotent (env : Env) (net : Net) (fs : FS)
    (h : (run env net fs).outcome = Outcome.ok) :
    run env net (run env net fs).fs =
      ⟨(run env net fs).fs, [], [], [], Outcome.ok⟩ := by
  obtain ⟨ht, seen, anchors, hls, hsf, hcase⟩ := run_ok_shape env net fs h
  rcases hcase with ⟨hempty, hrun⟩ | ⟨st, hloop, hrun⟩
  · rw [hrun]
    exact hrun
  · rw [hrun]
    simp only
    have hmem : ∀ l, l ∈ fetchListings net.join anchors →
        l.id ∈ dedupFirst (sortStrings st.seen) := by
      intro l hl
      have hseen : l.id ∈ st.seen := by
        by_cases hin : l.id ∈ seen
        · exact (runLoop_true_seen env net _ _ _ hloop).1 l.id hin
        · refine (runLoop_true_seen env net _ _ _ hloop).2.1 l ?_
          rw [List.mem_filter]
          exact ⟨hl, by simpa using hin⟩
      rw [mem_dedupFirst, mem_sortStrings]
      exact hseen
    have hempty2 : ((fetchListings net.join anchors).filter
        (fun l => l.id ∉ dedupFirst (sortStrings st.seen))).isEmpty = true := by
      rw [List.isEmpty_iff, List.filter_eq_nil_iff]
      intro l hl
      simp [hmem l hl]
    have hls2 : loadSeenE { st.fs with seenFile := some (some (sortStrings st.seen)) } =
        Except.ok (dedupFirst (sortStrings st.seen)) := rfl
    unfold run
    rw [if_pos ht]
    simp only [hls2, hsf]
    rw [if_pos hempty2]

theorem run_idempotent_witness :
    run envA netA (run envA netA fs0).fs =
      ⟨(run envA netA fs0).fs, [], [], [], Outcome.ok⟩ :=
  run_idempotent envA netA fs0 (by decide)

/-- C7: in every run that exits successfully the seen set readable from the
final filesystem is a superset of the one loaded at run start (identifiers
are never removed), and either the run found nothing new and left the seen
file byte for byte unchanged, or it rewrote the file with a duplicate-free
list in ascending string order holding exactly the final seen set. -/
theorem seen_monotone (env : Env) (net : Net) (fs : FS)
    (h : (run env net fs).outcome = Outcome.ok) :
    ∃ s0 s1, loadSeenE fs = Except.ok s0 ∧
      loadSeenE (run env net fs).fs = Except.ok s1 ∧
      (∀ x, x ∈ s0 → x ∈ s1) ∧
      ((run env net fs).fs.seenFile = fs.seenFile ∨
        ∃ l, (run env net fs).fs.seenFile = some (some l) ∧
          List.Pairwise (fun a b => strLe a b = true) l ∧ l.Nodup ∧
          (∀ x, x ∈ l ↔ x ∈ s1)) := by
  obtain ⟨ht, seen, anchors, hls, hsf, hcase⟩ := run_ok_shape env net fs h
  rcases hcase with ⟨hempty, hrun⟩ | ⟨st, hloop, hrun⟩
  · exact ⟨seen, seen, hls, by rw [hrun]; exact hls, fun x hx => hx,
      Or.inl (by rw [hrun])⟩
  · refine ⟨seen, dedupFirst (sortStrings st.seen), hls, by rw [hrun]; rfl, ?_, ?_⟩
    · intro x hx
      rw [mem_dedupFirst, mem_sortStrings]
      exact (runLoop_true_seen env net _ _ _ hloop).1 x hx
    · right
      refine ⟨sortStrings st.seen, by rw [hrun], pairwise_sortStrings st.seen, ?_, ?_⟩
      · have hnd0 : seen.Nodup := nodup_loadSeen fs seen hls
        exact nodup_sortStrings st.seen
          ((runLoop_true_seen env net _ _ _ hloop).2.2.2 hnd0)
      · intro x
        rw [mem_sortStrings, mem_dedupFirst, mem_sortStrings]

theorem seen_monotone_witness :
    ∃ s0 s1, loadSeenE fs0 = Except.ok s0 ∧
      loadSeenE (run envA netA fs0).fs = Except.ok s1 ∧
      (∀ x, x ∈ s0 → x ∈ s1) ∧
      ((run envA netA fs0).fs.seenFile = fs0.seenFile ∨
        ∃ l, (run envA netA fs0).fs.seenFile = some (some l) ∧
          List.Pairwise (fun a b => strLe a b = true) l ∧ l.Nodup ∧
          (∀ x, x ∈ l ↔ x ∈ s1)) :=
  seen_monotone envA netA fs0 (by decide)

theorem sendEmail_self (env : Env) (net : Net) (subject bodyStr : String)
    (m : EmailMsg) (b : Bool) (h : (m, b) ∈ sendEmail env net subject bodyStr) :
    ∃ u, env.gmailUser = some u ∧ m.fromAddr = u ∧ m.toAddr = u := by
  unfold sendEmail at h
  rcases hu : env.gmailUser with _ | u
  · simp only [hu] at h
    exact absurd h (List.not_mem_nil _)
  · rcases hp : env.gmailPassword with _ | p
    · simp only [hu, hp] at h
      exact absurd h (List.not_mem_nil _)
    · simp only [hu, hp] at h
      by_cases hup : u = "" ∨ p = ""
      · rw [if_pos hup] at h
        exact absurd h (List.not_mem_nil _)
      · rw [if_neg hup] at h
        simp only [List.mem_singleton, Prod.mk.injEq] at h
        obtain ⟨hm, -⟩ := h
        subst hm
        exact ⟨u, rfl, rfl, rfl⟩

theorem processListing_emails (env : Env) (net : Net) (l : Listing) (st : RunState)
    (m : EmailMsg) (b : Bool)
    (h : (m, b) ∈ (processListing env net l st).1.emails) :
    (m, b) ∈ st.emails ∨
      ∃ u, env.gmailUser = some u ∧ m.fromAddr = u ∧ m.toAddr = u := by
  unfold processListing at h
  cases hs : sendSms env net (bodyOf l) with
  | failed =>
    rw [hs] at h
    have h' : (m, b) ∈ st.emails ++ sendEmail env net (subjectOf l) (bodyOf l) := h
    rcases List.mem_append.mp h' with h'' | h''
    · exact Or.inl h''
    · exact Or.inr (sendEmail_self env net _ _ m b h'')
  | skipped =>
    rw [hs] at h
    have h0 : (m, b) ∈ (afterSms net l
        { st with emails := st.emails ++ sendEmail env net (subjectOf l) (bodyOf l) }).1.emails := h
    rw [afterSms_emails] at h0
    have h1 : (m, b) ∈ st.emails ++ sendEmail env net (subjectOf l) (bodyOf l) := h0
    rcases List.mem_append.mp h1 with h'' | h''
    · exact Or.inl h''
    · exact Or.inr (sendEmail_self env net _ _ m b h'')
  | sent b' =>
    rw [hs] at h
    have h0 : (m, b) ∈ (afterSms net l { { st with emails := st.emails ++ sendEmail env net (subjectOf l) (bodyOf l) } with smsSent := st.smsSent ++ [b'] }).1.emails := h
    rw [afterSms_emails] at h0
    have h1 : (m, b) ∈ st.emails ++ sendEmail env net (subjectOf l) (bodyOf l) := h0
    rcases List.mem_append.mp h1 with h'' | h''
    · exact Or.inl h''
    · exact Or.inr (sendEmail_self env net _ _ m b h'')

theorem runLoop_emails (env : Env) (net : Net) (m : EmailMsg) (b : Bool) :
    ∀ ls st, (m, b) ∈ (runLoop env net ls st).1.emails →
      (m, b) ∈ st.emails ∨
        ∃ u, env.gmailUser = some u ∧ m.fromAddr = u ∧ m.toAddr = u := by
  intro ls
  induction ls with
  | nil => intro st h; exact Or.inl h
  | cons l rest ih =>
    intro st h
    unfold runLoop at h
    rcases hp : processListing env net l st with ⟨st1, b1⟩
    rw [hp] at h
    cases b1 with
    | true =>
      have h' : (m, b) ∈ (runLoop env net rest st1).1.emails := h
      rcases ih st1 h' with h'' | h''
      · have hmem : (m, b) ∈ (processListing env net l st).1.emails := by
          rw [hp]; exact h''
        exact processListing_emails env net l st m b hmem
      · exact Or.inr h''
    | false =>
      have hmem : (m, b) ∈ (processListing env net l st).1.emails := by
        rw [hp]; exact h
      exact processListing_emails env net l st m b hmem

/-- C10: every email the run hands to the SMTP transport, in particular
every email actually sent, has its To header equal to its From header,
both set to the configured GMAIL_USER account.  Notification emails only
ever go to the sender mailbox. -/
theorem email_to_self (env : Env) (net : Net) (fs : FS) (m : EmailMsg) (b : Bool)
    (h : (m, b) ∈ (run env net fs).emails) :
    ∃ u, env.gmailUser = some u ∧ m.fromAddr = u ∧ m.toAddr = u := by
  by_cases ht : truthy env.searchUrl = true
  · unfold run at h
    rw [if_pos ht] at h
    cases hls : loadSeenE fs with
    | error e =>
      simp only [hls] at h
      exact absurd h (List.not_mem_nil _)
    | ok seen =>
      simp only [hls] at h
      cases hsf : net.searchFetch with
      | error e =>
        simp only [hsf] at h
        exact absurd h (List.not_mem_nil _)
      | ok anchors =>
        simp only [hsf] at h
        by_cases hni : ((fetchListings net.join anchors).filter
            (fun l => l.id ∉ seen)).isEmpty = true
        · rw [if_pos hni] at h
          exact absurd h (List.not_mem_nil _)
        · rw [if_neg hni] at h
          rcases hloop : runLoop env net
              ((fetchListings net.join anchors).filter (fun l => l.id ∉ seen))
              ⟨fs, [], [], [], seen⟩ with ⟨st, b1⟩
          have h' : (m, b) ∈ (runLoop env net
              ((fetchListings net.join anchors).filter (fun l => l.id ∉ seen))
              ⟨fs, [], [], [], seen⟩).1.emails := by
            rw [hloop]
            simp only [hloop] at h
            cases b1 <;> exact h
          rcases runLoop_emails env net m b _ _ h' with h'' | h''
          · exact absurd h'' (List.not_mem_nil _)
          · exact h''
  · unfold run at h
    rw [if_neg ht] at h
    exact absurd h (List.not_mem_nil _)

theorem email_to_self_witness :
    ∃ u, envA.gmailUser = some u ∧ mA.fromAddr = u ∧ mA.toAddr = u :=
  email_to_self envA netA fs0 mA true (by decide)

theorem archiveListing_total (net : Net) (l : Listing) (fs : FS)
    (hpage : ∀ u e, net.pageFetch u ≠ Except.error e) :
    (archiveListing net l fs).2.2 = true := by
  unfold archiveListing
  cases hl : lookupA l.id fs.archives with
  | some fo => rfl
  | none =>
    cases hp : net.pageFetch l.url with
    | error e => exact absurd hp (hpage l.url e)
    | ok page => rfl

theorem afterSms_total (net : Net) (l : Listing) (st : RunState)
    (hpage : ∀ u e, net.pageFetch u ≠ Except.error e) :
    (afterSms net l st).2 = true := by
  unfold afterSms
  rcases har : archiveListing net l st.fs with ⟨fs', log, b⟩
  have hb : b = true := by
    have htot := archiveListing_total net l st.fs hpage
    rw [har] at htot
    exact htot
  subst hb
  simp [har]

theorem processListing_total (env : Env) (net : Net) (l : Listing) (st : RunState)
    (hsms : ∀ s, net.smsOk s = true)
    (hpage : ∀ u e, net.pageFetch u ≠ Except.error e) :
    (processListing env net l st).2 = true := by
  unfold processListing
  cases hs : sendSms env net (bodyOf l) with
  | failed =>
    exfalso
    unfold sendSms at hs
    by_cases hc : (truthy env.twilioSid && truthy env.twilioToken &&
        truthy env.twilioFrom && truthy env.twilioTo) = true
    · rw [if_pos hc, if_pos (hsms _)] at hs
      exact SmsResult.noConfusion hs
    · rw [if_neg hc] at hs
      exact SmsResult.noConfusion hs
  | skipped =>
    exact afterSms_total net l
      { st with emails := st.emails ++ sendEmail env net (subjectOf l) (bodyOf l) } hpage
  | sent b =>
    exact afterSms_total net l { { st with emails := st.emails ++ sendEmail env net (subjectOf l) (bodyOf l) } with smsSent := st.smsSent ++ [b] } hpage

theorem runLoop_total (env : Env) (net : Net)
    (hsms : ∀ s, net.smsOk s = true)
    (hpage : ∀ u e, net.pageFetch u ≠ Except.error e) :
    ∀ ls st, (runLoop env net ls st).2 = true := by
  intro ls
  induction ls with
  | nil => intro st; rfl
  | cons l rest ih =>
    intro st
    unfold runLoop
    rcases hp : processListing env net l st with ⟨st1, b⟩
    have hb : b = true := by
      have htot := processListing_total env net l st hsms hpage
      rw [hp] at htot
      exact htot
    subst hb
    exact ih st1

/-- C4 counterexample: a world with SEARCH_URL configured whose search-page
fetch fails: the uncaught request exception terminates the process with a
non-zero status although the search location is present, refuting both the
only-if direction of the claim and the assertion that every run starting
with a configured search location completes successfully. -/
theorem run_exit_counterexample :
    truthy envB.searchUrl = true ∧ (run envB netB fs0).outcome = Outcome.fatal := by
  decide

/-- C4 amended: a missing (or empty, hence falsy) search location exits
non-zero, and a run with a configured search location exits successfully
provided no uncaught runtime fault occurs: the seen file, when present,
decodes; the search fetch succeeds; every SMS transport call succeeds; and
every listing page fetch succeeds.  Such faults are further non-zero exit
conditions beyond missing configuration, so missing configuration is not
the only one.  A fault-free run finding zero new listings also exits
successfully. -/
theorem run_exit_amended (env : Env) (net : Net) (fs : FS) :
    (truthy env.searchUrl = false → (run env net fs).outcome = Outcome.fatal) ∧
    (truthy env.searchUrl = true → fs.seenFile ≠ some none →
      (∀ e, net.searchFetch ≠ Except.error e) →
      (∀ s, net.smsOk s = true) →
      (∀ u e, net.pageFetch u ≠ Except.error e) →
      (run env net fs).outcome = Outcome.ok) := by
  constructor
  · intro hf
    have hc : ¬(truthy env.searchUrl = true) := by simp [hf]
    unfold run
    rw [if_neg hc]
  · intro ht hseen hfetch hsms hpage
    obtain ⟨s, hls⟩ : ∃ s, loadSeenE fs = Except.ok s := by
      unfold loadSeenE
      rcases hfs : fs.seenFile with _ | (_ | l)
      · exact ⟨[], rfl⟩
      · exact absurd hfs hseen
      · exact ⟨dedupFirst l, rfl⟩
    cases hsf : net.searchFetch with
    | error e => exact absurd hsf (hfetch e)
    | ok anchors =>
      unfold run
      rw [if_pos ht]
      simp only [hls, hsf]
      by_cases hni : ((fetchListings net.join anchors).filter
          (fun l => l.id ∉ s)).isEmpty = true
      · rw [if_pos hni]
      · rw [if_neg hni]
        rcases hloop : runLoop env net
            ((fetchListings net.join anchors).filter (fun l => l.id ∉ s))
            ⟨fs, [], [], [], s⟩ with ⟨st, b⟩
        have hb : b = true := by
          have htot := runLoop_total env net hsms hpage
            ((fetchListings net.join anchors).filter (fun l => l.id ∉ s))
            ⟨fs, [], [], [], s⟩
          rw [hloop] at htot
          exact htot
        subst hb
        simp only [hloop]

theorem run_exit_amended_witness :
    (run envB netOk fs0).outcome = Outcome.ok :=
  (run_exit_amended envB netOk fs0).2 (by decide) (by decide)
    (by intro e h; cases e; simp only [netOk] at h; exact Except.noConfusion h)
    (fun s => rfl)
    (by intro u e h; cases e; simp only [netOk] at h; exact Except.noConfusion h)

theorem net_mk_searchFetch (sf : Except Unit (List Anchor)) (j : String → String)
    (pf : String → Except Unit Page) (io : String → Bool) (eo : EmailMsg → Bool)
    (so : String → Bool) (n : String) :
    Net.searchFetch ⟨sf, j, pf, io, eo, so, n⟩ = sf := rfl

theorem net_mk_join (sf : Except Unit (List Anchor)) (j : String → String)
    (pf : String → Except Unit Page) (io : String → Bool) (eo : EmailMsg → Bool)
    (so : String → Bool) (n : String) :
    Net.join ⟨sf, j, pf, io, eo, so, n⟩ = j := rfl

theorem net_mk_pageFetch (sf : Except Unit (List Anchor)) (j : String → String)
    (pf : String → Except Unit Page) (io : String → Bool) (eo : EmailMsg → Bool)
    (so : String → Bool) (n : String) :
    Net.pageFetch ⟨sf, j, pf, io, eo, so, n⟩ = pf := rfl

theorem net_mk_imageOk (sf : Except Unit (List Anchor)) (j : String → String)
    (pf : String → Except Unit Page) (io : String → Bool) (eo : EmailMsg → Bool)
    (so : String → Bool) (n : String) :
    Net.imageOk ⟨sf, j, pf, io, eo, so, n⟩ = io := rfl

theorem net_mk_emailOk (sf : Except Unit (List Anchor)) (j : String → String)
    (pf : String → Except Unit Page) (io : String → Bool) (eo : EmailMsg → Bool)
    (so : String → Bool) (n : String) :
    Net.emailOk ⟨sf, j, pf, io, eo, so, n⟩ = eo := rfl

theorem net_mk_smsOk (sf : Except Unit (List Anchor)) (j : String → String)
    (pf : String → Except Unit Page) (io : String → Bool) (eo : EmailMsg → Bool)
    (so : String → Bool) (n : String) :
    Net.smsOk ⟨sf, j, pf, io, eo, so, n⟩ = so := rfl

theorem net_mk_now (sf : Except Unit (List Anchor)) (j : String → String)
    (pf : String → Except Unit Page) (io : String → Bool) (eo : EmailMsg → Bool)
    (so : String → Bool) (n : String) :
    Net.now ⟨sf, j, pf, io, eo, so, n⟩ = n := rfl

theorem sendEmail_emailOk (env : Env) (net : Net) (f : EmailMsg → Bool)
    (subject bodyStr : String) :
    (sendEmail env { net with emailOk := f } subject bodyStr).map Prod.fst =
      (sendEmail env net subject bodyStr).map Prod.fst := by
  rcases hu : env.gmailUser with _ | u
  · simp [sendEmail, hu]
  · rcases hp : env.gmailPassword with _ | p
    · simp [sendEmail, hu, hp]
    · by_cases hup : u = "" ∨ p = ""
      · simp [sendEmail, hu, hp, hup]
      · simp [sendEmail, hu, hp, hup]

theorem writeImagesA_emailOk (net : Net) (f : EmailMsg → Bool) (lid : String) :
    ∀ us i ar, writeImagesA { net with emailOk := f } lid us i ar =
      writeImagesA net lid us i ar := by
  intro us
  induction us with
  | nil => intro i ar; rfl
  | cons u us ih =>
    intro i ar
    simp only [writeImagesA]
    rw [ih]

theorem archiveListing_emailOk (net : Net) (f : EmailMsg → Bool) (l : Listing)
    (fs : FS) :
    archiveListing { net with emailOk := f } l fs = archiveListing net l fs := by
  unfold archiveListing
  simp only
  cases hl : lookupA l.id fs.archives with
  | some fo => rfl
  | none =>
    cases hp : net.pageFetch l.url with
    | error e => simp only [hp]
    | ok page =>
      simp only [hp]
      rw [writeImagesA_emailOk]

theorem sendSms_emailOk (env : Env) (net : Net) (f : EmailMsg → Bool)
    (bodyStr : String) :
    sendSms env { net with emailOk := f } bodyStr = sendSms env net bodyStr := rfl

theorem afterSms_core (net : Net) (f : EmailMsg → Bool) (l : Listing)
    (s1 s2 : RunState)
    (hc1 : s1.fs = s2.fs) (hc2 : s1.emails.map Prod.fst = s2.emails.map Prod.fst)
    (hc3 : s1.smsSent = s2.smsSent) (hc4 : s1.fetches = s2.fetches)
    (hc5 : s1.seen = s2.seen) :
    StCore (afterSms { net with emailOk := f } l s1).1 = StCore (afterSms net l s2).1 ∧
    (afterSms { net with emailOk := f } l s1).2 = (afterSms net l s2).2 := by
  unfold afterSms
  rw [archiveListing_emailOk, hc1]
  rcases har : archiveListing net l s2.fs with ⟨fs', log, b⟩
  cases b <;> simp [StCore, hc1, hc2, hc3, hc4, hc5]

theorem processListing_emailOk (env : Env) (net : Net) (f : EmailMsg → Bool)
    (l : Listing) (st st' : RunState) (hc : StCore st = StCore st') :
    StCore (processListing env { net with emailOk := f } l st).1 =
      StCore (processListing env net l st').1 ∧
    (processListing env { net with emailOk := f } l st).2 =
      (processListing env net l st').2 := by
  simp only [StCore, Prod.mk.injEq] at hc
  obtain ⟨h1, h2, h3, h4, h5⟩ := hc
  unfold processListing
  rw [sendSms_emailOk]
  have hemails : (st.emails ++ sendEmail env { net with emailOk := f }
        (subjectOf l) (bodyOf l)).map Prod.fst =
      (st'.emails ++ sendEmail env net (subjectOf l) (bodyOf l)).map Prod.fst := by
    rw [List.map_append, List.map_append, h2, sendEmail_emailOk]
  cases hs : sendSms env net (bodyOf l) with
  | failed =>
    refine ⟨?_, rfl⟩
    simp only [StCore, Prod.mk.injEq]
    exact ⟨h1, hemails, h3, h4, h5⟩
  | skipped =>
    exact afterSms_core net f l _ _ h1 hemails h3 h4 h5
  | sent b =>
    exact afterSms_core net f l _ _ h1 hemails (by simp only [h3]) h4 h5

theorem runLoop_emailOk (env : Env) (net : Net) (f : EmailMsg → Bool) :
    ∀ ls st st', StCore st = StCore st' →
      StCore (runLoop env { net with emailOk := f } ls st).1 =
        StCore (runLoop env net ls st').1 ∧
      (runLoop env { net with emailOk := f } ls st).2 =
        (runLoop env net ls st').2 := by
  intro ls
  induction ls with
  | nil => intro st st' hc; exact ⟨hc, rfl⟩
  | cons l rest ih =>
    intro st st' hc
    obtain ⟨hcore, hflag⟩ := processListing_emailOk env net f l st st' hc
    unfold runLoop
    rcases hp1 : processListing env { net with emailOk := f } l st with ⟨s1, b1⟩
    rcases hp2 : processListing env net l st' with ⟨s2, b2⟩
    rw [hp1, hp2] at hflag
    rw [hp1, hp2] at hcore
    cases b1 with
    | true =>
      cases b2 with
      | true => exact ih s1 s2 hcore
      | false => exact Bool.noConfusion hflag
    | false =>
      cases b2 with
      | true => exact Bool.noConfusion hflag
      | false => exact ⟨hcore, rfl⟩

/-- C3 counterexample: a concrete world with Twilio credentials present
whose SMS transport fails on a new listing.  The run ends with a non-zero
exit and the filesystem unchanged: the failed SMS aborted that listing
archive step and the final seen-set persist, refuting the claim that a
transport failure in the SMS channel is caught, cannot prevent the archive
step, and never aborts the batch or the persist. -/
theorem sms_fault_counterexample :
    (run envS netS fs0).outcome = Outcome.fatal ∧ (run envS netS fs0).fs = fs0 := by
  decide

/-- C3 amended: an email transport failure is caught by main and changes
nothing but the per-email transport outcome: the filesystem effects, the
SMS attempts, the archive fetches, the attempted email messages and the
exit status of the run are identical whatever the email transport returns
(first conjunct, stated for an arbitrary replacement f of the email
oracle).  An SMS transport failure, by contrast, is not caught: when the
Twilio credentials are truthy and the transport fails on the first new
listing, the run stops at once with a non-zero exit, the attempted email
of that listing as the only notification trace, no SMS sent, no archive
fetch performed, and the filesystem (including the seen file) unchanged
(second conjunct). -/
theorem notify_fault_spec (env : Env) (net : Net) (fs : FS) (f : EmailMsg → Bool) :
    coreOf (run env { net with emailOk := f } fs) = coreOf (run env net fs) ∧
    (∀ seen anchors (l : Listing) rest,
      truthy env.searchUrl = true →
      loadSeenE fs = Except.ok seen →
      net.searchFetch = Except.ok anchors →
      (fetchListings net.join anchors).filter (fun x => x.id ∉ seen) = l :: rest →
      truthy env.twilioSid = true → truthy env.twilioToken = true →
      truthy env.twilioFrom = true → truthy env.twilioTo = true →
      net.smsOk (strTake (bodyOf l) 1600) = false →
      run env net fs =
        ⟨fs, sendEmail env net (subjectOf l) (bodyOf l), [], [], Outcome.fatal⟩) := by
  constructor
  · obtain ⟨sf, j, pf, io, eo, so, n⟩ := net
    by_cases ht : truthy env.searchUrl = true
    · unfold run
      rw [if_pos ht, if_pos ht]
      cases hls : loadSeenE fs with
      | error e => simp only [hls]
      | ok seen =>
        simp only [hls]
        cases sf with
        | error e => rfl
        | ok anchors =>
          simp only [net_mk_searchFetch, net_mk_join, net_mk_pageFetch,
            net_mk_imageOk, net_mk_emailOk, net_mk_smsOk, net_mk_now]
          by_cases hni : ((fetchListings j anchors).filter
              (fun l => l.id ∉ seen)).isEmpty = true
          · rw [if_pos hni, if_pos hni]
          · rw [if_neg hni, if_neg hni]
            rcases hl1 : runLoop env ⟨Except.ok anchors, j, pf, io, f, so, n⟩
                ((fetchListings j anchors).filter (fun l => l.id ∉ seen))
                ⟨fs, [], [], [], seen⟩ with ⟨s1, b1⟩
            rcases hl2 : runLoop env ⟨Except.ok anchors, j, pf, io, eo, so, n⟩
                ((fetchListings j anchors).filter (fun l => l.id ∉ seen))
                ⟨fs, [], [], [], seen⟩ with ⟨s2, b2⟩
            obtain ⟨hcore, hflag⟩ := runLoop_emailOk env
              ⟨Except.ok anchors, j, pf, io, eo, so, n⟩ f
              ((fetchListings j anchors).filter (fun l => l.id ∉ seen))
              ⟨fs, [], [], [], seen⟩ ⟨fs, [], [], [], seen⟩ rfl
            simp only [net_mk_searchFetch, net_mk_join, net_mk_pageFetch,
              net_mk_imageOk, net_mk_emailOk, net_mk_smsOk, net_mk_now] at hcore hflag
            rw [hl1, hl2] at hflag
            rw [hl1, hl2] at hcore
            simp only [StCore, Prod.mk.injEq] at hcore
            obtain ⟨k1, k2, k3, k4, k5⟩ := hcore
            cases b1 with
            | true =>
              cases b2 with
              | true => simp [coreOf, k1, k2, k3, k4, k5]
              | false => exact Bool.noConfusion hflag
            | false =>
              cases b2 with
              | true => exact Bool.noConfusion hflag
              | false => simp [coreOf, k1, k2, k3, k4]
    · unfold run
      rw [if_neg ht, if_neg ht]
  · intro seen anchors l rest ht hls hsf hfilter hsid htok hfrom hto hsms
    unfold run
    rw [if_pos ht]
    simp only [hls, hsf, hfilter]
    have hsend : sendSms env net (bodyOf l) = SmsResult.failed := by
      unfold sendSms
      rw [if_pos (by simp [hsid, htok, hfrom, hto]), if_neg (by simp [hsms])]
    unfold runLoop processListing
    simp only [hsend]
    rfl

theorem notify_fault_spec_witness :
    coreOf (run envA { netA with emailOk := fun _ => false } fs0) =
      coreOf (run envA netA fs0) ∧
    run envS netS fs0 =
      ⟨fs0, sendEmail envS netS (subjectOf lS) (bodyOf lS), [], [], Outcome.fatal⟩ :=
  ⟨(notify_fault_spec envA netA fs0 (fun _ => false)).1,
    (notify_fault_spec envS netS fs0 (fun _ => false)).2 [] [⟨("/a/-333333"), ("Car")⟩]
      lS [] (by decide) rfl rfl (by decide) (by decide) (by decide) (by decide)
      (by decide) rfl⟩

end ATBot
